import Mathlib

set_option maxHeartbeats 2000000
set_option maxRecDepth 65536

/- Shallow embedding of `src/04_Writing_Viterbi_Algorithm_for_the_Primer.ipynb`.

   Python dictionaries are association lists with first-match lookup, and a
   missing key is `Err.keyError`; Python exceptions are `Except Err`; Python
   float probabilities are `ℚ`; Python log-probabilities are `EReal`, with
   `-math.inf` embedded as `⊥`.  A Python `str` that is iterated character by
   character is a `List String` of one-character strings, so that the
   multi-character dictionary keys `"Start"` and `"End"` live in the same type
   as the state labels. -/

inductive Err where
  | keyError
  | indexError
  | valueError
  | lengthMismatch
deriving DecidableEq

/-- Helper turning an `Except` into a `Sum`, to derive decidable equality. -/
def exceptToSum {ε α : Type} : Except ε α → ε ⊕ α
  | .error e => .inl e
  | .ok a => .inr a

instance {ε α : Type} [DecidableEq ε] [DecidableEq α] : DecidableEq (Except ε α) :=
  fun a b =>
    decidable_of_iff (exceptToSum a = exceptToSum b)
      (by cases a <;> cases b <;> simp [exceptToSum])

/-- The characters of a Python string, as one-character strings. -/
def letters (s : String) : List String :=
  s.data.map (fun c => String.mk [c])

/-- A bundle of the four module-level constants of the notebook
    (`hmm_states`, `start_probs`, `trans_probs`, `emit_probs`). -/
structure Model where
  hmm_states : List String
  start_probs : List (String × ℚ)
  trans_probs : List (String × List (String × ℚ))
  emit_probs : List (String × List (String × ℚ))

/-- Exception propagation: evaluate `x`; a raised error propagates, a value
    feeds the rest of the computation. -/
def tryOp {α β : Type} (x : Except Err α) (f : α → Except Err β) : Except Err β :=
  match x with
  | .error e => .error e
  | .ok a => f a

/-- Python dictionary subscript `d[k]`: the stored value, or a `KeyError`. -/
def dget {α : Type} (d : List (String × α)) (k : String) : Except Err α :=
  match d.lookup k with
  | some v => .ok v
  | none => .error .keyError

/-- `trans_probs[a][b]`. -/
def trans2 (m : Model) (a b : String) : Except Err ℚ :=
  tryOp (dget m.trans_probs a) fun row => dget row b

/-- `emit_probs[a][b]`. -/
def emit2 (m : Model) (a b : String) : Except Err ℚ :=
  tryOp (dget m.emit_probs a) fun row => dget row b

/-- `safe_log` from the notebook: `-math.inf` for zero, `math.log` otherwise. -/
noncomputable def safe_log (num : ℚ) : EReal :=
  if num = 0 then ⊥ else ((Real.log (num : ℝ) : ℝ) : EReal)

/-- The `for curr_state, base in zip(states, sequence)` loop of
    `calc_path_probability`, carrying `last_state` and `total_log_prob`. -/
noncomputable def scoreLoop (m : Model) :
    List (String × String) → String → EReal → Except Err (String × EReal)
  | [], last_state, total => .ok (last_state, total)
  | (curr_state, base) :: rest, last_state, total =>
    tryOp (trans2 m last_state curr_state) fun tp =>
    tryOp (emit2 m curr_state base) fun ep =>
    scoreLoop m rest curr_state (total + (safe_log tp + safe_log ep))

/-- `calc_path_probability(states, sequence)` from the notebook. -/
noncomputable def calc_path_probability (m : Model) (states sequence : List String) :
    Except Err EReal :=
  if states.length ≠ sequence.length then .error .lengthMismatch
  else
    tryOp (scoreLoop m (states.zip sequence) "Start" 0) fun r =>
      if r.1 == "I" then
        tryOp (trans2 m r.1 "End") fun p => .ok (r.2 + safe_log p)
      else .ok r.2

/-- One merged row of `dp_table[pos]` and `backtrack[pos]`:
    `(state, best probability, best previous state)`. -/
abbrev Col := List (String × ℚ × Option String)

/-- `dp_table[pos][s]`. -/
def colProb (col : Col) (s : String) : Except Err ℚ :=
  match col.lookup s with
  | some pb => .ok pb.1
  | none => .error .keyError

/-- `backtrack[pos][s]`. -/
def colBP (col : Col) (s : String) : Except Err (Option String) :=
  match col.lookup s with
  | some pb => .ok pb.2
  | none => .error .keyError

/-- The initialization loop of `find_best_path`:
    `dp_table[0][state] = start_probs[state] * emit_probs[state][dna_seq[0]]`
    (`backtrack[0]` is never read, stored here as `none`). -/
def initCol (m : Model) (sym : String) : List String → Except Err Col
  | [] => .ok []
  | state :: rest =>
    tryOp (dget m.start_probs state) fun sp =>
    tryOp (emit2 m state sym) fun ep =>
    tryOp (initCol m sym rest) fun col => .ok ((state, sp * ep, none) :: col)

/-- The `for previous in hmm_states` loop of `find_best_path`, carrying the
    accumulator `(best_prob, best_prev)` initialized to `(0.0, None)` and
    updating it only on a strict improvement. -/
def bestPrev (m : Model) (prevCol : Col) (current sym : String)
    (acc : ℚ × Option String) : List String → Except Err (ℚ × Option String)
  | [] => .ok acc
  | previous :: rest =>
    tryOp (colProb prevCol previous) fun dp =>
    tryOp (trans2 m previous current) fun tp =>
    tryOp (emit2 m current sym) fun ep =>
    bestPrev m prevCol current sym
      (if dp * tp * ep > acc.1 then (dp * tp * ep, some previous) else acc) rest

/-- The `for current in hmm_states` loop of `find_best_path`, producing the
    column at one position from the previous column. -/
def nextCol (m : Model) (prevCol : Col) (sym : String) : List String → Except Err Col
  | [] => .ok []
  | current :: rest =>
    tryOp (bestPrev m prevCol current sym (0, none) m.hmm_states) fun pb =>
    tryOp (nextCol m prevCol sym rest) fun col => .ok ((current, pb) :: col)

/-- The `for pos in range(1, seq_len)` loop of `find_best_path`, collecting
    every `dp_table`/`backtrack` column in position order. -/
def buildCols (m : Model) (col : Col) : List String → Except Err (List Col)
  | [] => .ok [col]
  | sym :: rest =>
    tryOp (nextCol m col sym m.hmm_states) fun c =>
    tryOp (buildCols m c rest) fun cs => .ok (col :: cs)

/-- `max(dp_table[seq_len-1], key=dp_table[seq_len-1].get)`: the first key of
    the column achieving the maximal probability (Python `max` keeps the first
    maximum), or `None` for the empty dictionary (Python raises `ValueError`). -/
def maxKeyCol (col : Col) : Option String :=
  match col with
  | [] => none
  | e :: rest =>
    some ((rest.foldl (fun acc x => if x.2.1 > acc.2 then (x.1, x.2.1) else acc)
      (e.1, e.2.1)).1)

/-- The positions `range(seq_len-1, 0, -1)` of the traceback loop:
    `downFrom k = [k, k-1, ..., 1]`. -/
def downFrom : Nat → List Nat
  | 0 => []
  | k + 1 => (k + 1) :: downFrom k

/-- The traceback loop of `find_best_path`: repeatedly look up
    `backtrack[pos][final_state]` and prepend it to the path.  A `None`
    `final_state` reaching another lookup is Python's `KeyError`. -/
def tracebackLoop (cols : List Col) :
    List Nat → Option String → List (Option String) → Except Err (List (Option String))
  | [], _, acc => .ok acc
  | pos :: rest, final_state, acc =>
    match final_state with
    | none => .error .keyError
    | some s =>
      tryOp (colBP (cols.getD pos []) s) fun bp =>
      tracebackLoop cols rest bp (bp :: acc)

/-- `find_best_path(dna_seq)` from the notebook.  On the empty sequence the
    Python code fails at `dp_table[0]` with an `IndexError`. -/
def find_best_path (m : Model) (dna_seq : List String) : Except Err (List (Option String)) :=
  match dna_seq with
  | [] => .error .indexError
  | s0 :: rest =>
    tryOp (initCol m s0 m.hmm_states) fun c0 =>
    tryOp (buildCols m c0 rest) fun cols =>
      match maxKeyCol (cols.getLastD []) with
      | none => .error .valueError
      | some f0 => tracebackLoop cols (downFrom rest.length) (some f0) [some f0]

/-- `hmm_states` from the notebook. -/
def hmm_states : List String := ["E", "5", "I"]

/-- `dna_bases` from the notebook. -/
def dna_bases : List String := ["A", "C", "G", "T"]

/-- `start_probs` from the notebook. -/
def start_probs : List (String × ℚ) := [("E", 1), ("5", 0), ("I", 0)]

/-- `trans_probs` from the notebook. -/
def trans_probs : List (String × List (String × ℚ)) :=
  [("Start", [("E", 1), ("5", 0), ("I", 0), ("End", 0)]),
   ("E", [("E", 9/10), ("5", 1/10), ("I", 0), ("End", 0)]),
   ("5", [("E", 0), ("5", 0), ("I", 1), ("End", 0)]),
   ("I", [("E", 0), ("5", 0), ("I", 9/10), ("End", 1/10)])]

/-- `emit_probs` from the notebook. -/
def emit_probs : List (String × List (String × ℚ)) :=
  [("E", [("A", 1/4), ("C", 1/4), ("G", 1/4), ("T", 1/4)]),
   ("5", [("A", 1/20), ("C", 0), ("G", 19/20), ("T", 0)]),
   ("I", [("A", 2/5), ("C", 1/10), ("G", 1/10), ("T", 2/5)])]

/-- The reference model: the four notebook constants bundled together. -/
def refModel : Model := ⟨hmm_states, start_probs, trans_probs, emit_probs⟩

/-- A two-state model used as a counterexample witness: its rows are properly
    normalized, but the start state `X` cannot emit the symbol `a`, so every
    state path for the sequence `aa` has probability zero. -/
def toyModel : Model :=
  ⟨["X", "Y"],
   [("X", 1), ("Y", 0)],
   [("Start", [("X", 1), ("Y", 0), ("End", 0)]),
    ("X", [("X", 1/2), ("Y", 1/2), ("End", 0)]),
    ("Y", [("X", 1/2), ("Y", 1/2), ("End", 0)])],
   [("X", [("a", 0), ("b", 1)]),
    ("Y", [("a", 1/2), ("b", 1/2)])]⟩

/- ### Pure (total-function) view of the tables, used to state and prove
   the mathematical properties of the two embedded functions.  A missing key
   reads as probability `0`; wherever the Python code would instead raise a
   `KeyError`, the theorems below carry explicit coverage hypotheses under
   which both readings agree. -/

/-- Total lookup into a probability row: a missing key reads as `0`. -/
def tableQ (d : List (String × ℚ)) (k : String) : ℚ :=
  (d.lookup k).getD 0

/-- `start_probs[s]`, total. -/
def startQ (m : Model) (s : String) : ℚ :=
  tableQ m.start_probs s

/-- `trans_probs[a][b]`, total. -/
def transQ (m : Model) (a b : String) : ℚ :=
  tableQ ((m.trans_probs.lookup a).getD []) b

/-- `emit_probs[a][b]`, total. -/
def emitQ (m : Model) (a b : String) : ℚ :=
  tableQ ((m.emit_probs.lookup a).getD []) b

/-- The last element of a list, or the default `d` for the empty list
    (mirrors `last_state`, which starts as `"Start"`). -/
def lastOf (d : String) : List String → String
  | [] => d
  | x :: xs => lastOf x xs

/-- Product of `trans · emit` factors along consecutive `(state, symbol)`
    pairs, the previous state starting at `last`. -/
def rawFrom (m : Model) (last : String) : List (String × String) → ℚ
  | [] => 1
  | (cur, sym) :: rest => transQ m last cur * emitQ m cur sym * rawFrom m cur rest

/-- The joint probability of a state path and a symbol sequence as the
    decoder weighs it: `start_probs` for the first state, then transition
    and emission factors, and no `End` factor. -/
def pathProb (m : Model) : List (String × String) → ℚ
  | [] => 0
  | (p0, y0) :: rest => startQ m p0 * emitQ m p0 y0 * rawFrom m p0 rest

/-- The probability whose logarithm `calc_path_probability` computes: the
    first transition is taken from `"Start"`, and a path ending in `"I"`
    picks up the extra `trans_probs['I']['End']` factor. -/
def score_prod (m : Model) (path seq : List String) : ℚ :=
  rawFrom m "Start" (path.zip seq) *
    (if lastOf "Start" path = "I" then transQ m "I" "End" else 1)

/-- The sum over positions of (log transition + log emission), exactly as the
    scorer's loop accumulates it. -/
noncomputable def logTerms (m : Model) (last : String) : List (String × String) → EReal
  | [] => 0
  | (cur, sym) :: rest =>
    (safe_log (transQ m last cur) + safe_log (emitQ m cur sym)) + logTerms m cur rest

/-- A value function: for each state, the best probability so far and the
    backpointer recorded with it. -/
abbrev VF := String → ℚ × Option String

/-- Pure form of the `for previous in hmm_states` accumulator loop. -/
def bestAcc (g : String → ℚ) (acc : ℚ × Option String) : List String → ℚ × Option String
  | [] => acc
  | x :: rest => bestAcc g (if g x > acc.1 then (g x, some x) else acc) rest

/-- Pure form of one `(pos, current)` cell of the DP recursion. -/
def pstep (m : Model) (v : VF) (sym cur : String) : ℚ × Option String :=
  bestAcc (fun prv => (v prv).1 * transQ m prv cur * emitQ m cur sym) (0, none) m.hmm_states

/-- Pure form of one full column update. -/
def stepVF (m : Model) (v : VF) (sym : String) : VF :=
  fun cur => pstep m v sym cur

/-- Iterated column updates over a list of symbols. -/
def iterVF (m : Model) (v : VF) : List String → VF
  | [] => v
  | sym :: rest => iterVF m (stepVF m v sym) rest

/-- All value functions in position order (pure form of the list of columns). -/
def colsVF (m : Model) (v : VF) : List String → List VF
  | [] => [v]
  | sym :: rest => v :: colsVF m (stepVF m v sym) rest

/-- The column (association list) a value function denotes. -/
def colOf (m : Model) (v : VF) : Col :=
  m.hmm_states.map (fun s => (s, v s))

/-- The value function of position 0. -/
def vf0 (m : Model) (s0 : String) : VF :=
  fun s => (startQ m s * emitQ m s s0, none)

/- ### Validity-side predicates. -/

/-- Every probability stored in a row is nonnegative. -/
def TableNonneg (d : List (String × ℚ)) : Prop :=
  ∀ e ∈ d, 0 ≤ e.2

/-- Every probability stored in any of the model's tables is nonnegative
    (a consequence of the spec's “probability in [0,1]” invariant). -/
def NonnegModel (m : Model) : Prop :=
  TableNonneg m.start_probs ∧ (∀ r ∈ m.trans_probs, TableNonneg r.2) ∧
    (∀ r ∈ m.emit_probs, TableNonneg r.2)

/-- The decoder's lookups are all defined: every state has a start probability,
    a transition row covering every state, and an emission row covering every
    symbol of the sequence (the spec's “fully defined mappings” invariant). -/
def Covers (m : Model) (seq : List String) : Prop :=
  (∀ s ∈ m.hmm_states, (m.start_probs.lookup s).isSome) ∧
  (∀ s ∈ m.hmm_states, (m.trans_probs.lookup s).isSome ∧
    ∀ t ∈ m.hmm_states, (((m.trans_probs.lookup s).getD []).lookup t).isSome) ∧
  (∀ s ∈ m.hmm_states, (m.emit_probs.lookup s).isSome ∧
    ∀ b ∈ seq, (((m.emit_probs.lookup s).getD []).lookup b).isSome)

instance (d : List (String × ℚ)) : Decidable (TableNonneg d) := by
  unfold TableNonneg; infer_instance

instance (m : Model) : Decidable (NonnegModel m) := by
  unfold NonnegModel; infer_instance

instance (m : Model) (seq : List String) : Decidable (Covers m seq) := by
  unfold Covers; infer_instance

/-- The scorer's lookups along one `(state, symbol)` pair list are all
    defined, the previous state starting at `last`. -/
def covFrom (m : Model) (last : String) : List (String × String) → Prop
  | [] => True
  | (cur, sym) :: rest =>
    (m.trans_probs.lookup last).isSome ∧
    (((m.trans_probs.lookup last).getD []).lookup cur).isSome ∧
    (m.emit_probs.lookup cur).isSome ∧
    (((m.emit_probs.lookup cur).getD []).lookup sym).isSome ∧
    covFrom m cur rest

/-- Decidability of `covFrom`, so coverage can be checked by `decide`. -/
def covFromDec (m : Model) : (last : String) → (L : List (String × String)) →
    Decidable (covFrom m last L)
  | _, [] => .isTrue trivial
  | _, (cur, _) :: rest =>
    letI : Decidable (covFrom m cur rest) := covFromDec m cur rest
    inferInstanceAs (Decidable (_ ∧ _ ∧ _ ∧ _ ∧ _))

instance (m : Model) (last : String) (L : List (String × String)) :
    Decidable (covFrom m last L) := covFromDec m last L

/-- Every transition and emission factor along the pairs is positive. -/
def posFrom (m : Model) (last : String) : List (String × String) → Prop
  | [] => True
  | (cur, sym) :: rest =>
    0 < transQ m last cur ∧ 0 < emitQ m cur sym ∧ posFrom m cur rest

/-- Every factor of `pathProb` along a (state, symbol) pair list is positive:
    the path crosses no zero-probability start, transition or emission. -/
def posPath (m : Model) : List (String × String) → Prop
  | [] => True
  | (p0, y0) :: rest => 0 < startQ m p0 ∧ 0 < emitQ m p0 y0 ∧ posFrom m p0 rest

/- ### Basic lookup lemmas. -/

theorem tryOp_ok {α β : Type} (a : α) (f : α → Except Err β) :
    tryOp (.ok a) f = f a := rfl

theorem tryOp_error {α β : Type} (e : Err) (f : α → Except Err β) :
    tryOp (.error e) f = .error e := rfl

theorem lookup_eq_some_mem {α : Type} :
    ∀ (d : List (String × α)) (k : String) (v : α),
      d.lookup k = some v → (k, v) ∈ d
  | [], k, v, h => by simp [List.lookup] at h
  | (a, b) :: rest, k, v, h => by
    rw [List.lookup] at h
    by_cases hak : k = a
    · subst hak
      simp at h
      subst h
      exact List.mem_cons_self _ _
    · have hb : (k == a) = false := beq_false_of_ne hak
      rw [hb] at h
      exact List.mem_cons_of_mem _ (lookup_eq_some_mem rest k v h)

theorem lookup_map_self (f : String → ℚ × Option String) :
    ∀ (l : List String) (s : String), s ∈ l →
      (l.map (fun t => (t, f t))).lookup s = some (f s)
  | [], s, hs => by simp at hs
  | x :: xs, s, hs => by
    by_cases hx : s = x
    · subst hx
      simp [List.lookup]
    · have hs' : s ∈ xs := by
        rcases List.mem_cons.mp hs with h | h
        · exact absurd h hx
        · exact h
      have hbeq : (s == x) = false := beq_false_of_ne hx
      rw [List.map_cons, List.lookup, hbeq]
      exact lookup_map_self f xs s hs'

theorem dget_error {α : Type} (d : List (String × α)) (k : String) (e : Err)
    (h : dget d k = .error e) : e = .keyError := by
  unfold dget at h
  cases hl : d.lookup k with
  | none => rw [hl] at h; cases h; rfl
  | some v => rw [hl] at h; cases h

theorem dget_eq_tableQ (d : List (String × ℚ)) (k : String)
    (h : (d.lookup k).isSome) : dget d k = .ok (tableQ d k) := by
  unfold dget tableQ
  cases hl : d.lookup k with
  | none => rw [hl] at h; simp at h
  | some v => simp

theorem tableQ_nonneg (d : List (String × ℚ)) (k : String) (h : TableNonneg d) :
    0 ≤ tableQ d k := by
  unfold tableQ
  cases hl : d.lookup k with
  | none => simp
  | some v => simpa using h _ (lookup_eq_some_mem d k v hl)

theorem trans2_eq (m : Model) (a b : String)
    (h1 : (m.trans_probs.lookup a).isSome)
    (h2 : (((m.trans_probs.lookup a).getD []).lookup b).isSome) :
    trans2 m a b = .ok (transQ m a b) := by
  have hrow : dget m.trans_probs a = .ok ((m.trans_probs.lookup a).getD []) := by
    cases hl : m.trans_probs.lookup a with
    | none => rw [hl] at h1; simp at h1
    | some row => simp [dget, hl]
  unfold trans2 transQ
  rw [hrow, tryOp_ok]
  exact dget_eq_tableQ _ b h2

theorem emit2_eq (m : Model) (a b : String)
    (h1 : (m.emit_probs.lookup a).isSome)
    (h2 : (((m.emit_probs.lookup a).getD []).lookup b).isSome) :
    emit2 m a b = .ok (emitQ m a b) := by
  have hrow : dget m.emit_probs a = .ok ((m.emit_probs.lookup a).getD []) := by
    cases hl : m.emit_probs.lookup a with
    | none => rw [hl] at h1; simp at h1
    | some row => simp [dget, hl]
  unfold emit2 emitQ
  rw [hrow, tryOp_ok]
  exact dget_eq_tableQ _ b h2

theorem trans2_error (m : Model) (a b : String) (e : Err)
    (h : trans2 m a b = .error e) : e = .keyError := by
  unfold trans2 at h
  cases hd : dget m.trans_probs a with
  | error e' =>
    rw [hd, tryOp_error] at h; cases h; exact dget_error _ _ _ hd
  | ok row => rw [hd, tryOp_ok] at h; exact dget_error _ _ _ h

theorem emit2_error (m : Model) (a b : String) (e : Err)
    (h : emit2 m a b = .error e) : e = .keyError := by
  unfold emit2 at h
  cases hd : dget m.emit_probs a with
  | error e' =>
    rw [hd, tryOp_error] at h; cases h; exact dget_error _ _ _ hd
  | ok row => rw [hd, tryOp_ok] at h; exact dget_error _ _ _ h

/- ### Nonnegativity lemmas. -/

theorem startQ_nonneg (m : Model) (h : NonnegModel m) (s : String) :
    0 ≤ startQ m s :=
  tableQ_nonneg _ _ h.1

theorem transQ_nonneg (m : Model) (h : NonnegModel m) (a b : String) :
    0 ≤ transQ m a b := by
  unfold transQ
  cases hl : m.trans_probs.lookup a with
  | none => simp [tableQ]
  | some row =>
    simp only [Option.getD_some]
    exact tableQ_nonneg _ _ (h.2.1 _ (lookup_eq_some_mem _ _ _ hl))

theorem emitQ_nonneg (m : Model) (h : NonnegModel m) (a b : String) :
    0 ≤ emitQ m a b := by
  unfold emitQ
  cases hl : m.emit_probs.lookup a with
  | none => simp [tableQ]
  | some row =>
    simp only [Option.getD_some]
    exact tableQ_nonneg _ _ (h.2.2 _ (lookup_eq_some_mem _ _ _ hl))

theorem rawFrom_nonneg (m : Model) (h : NonnegModel m) :
    ∀ (L : List (String × String)) (last : String), 0 ≤ rawFrom m last L
  | [], _ => by norm_num [rawFrom]
  | (cur, sym) :: rest, last => by
    unfold rawFrom
    exact mul_nonneg (mul_nonneg (transQ_nonneg m h _ _) (emitQ_nonneg m h _ _))
      (rawFrom_nonneg m h rest cur)

theorem pathProb_nonneg (m : Model) (h : NonnegModel m) (L : List (String × String)) :
    0 ≤ pathProb m L := by
  cases L with
  | nil => simp [pathProb]
  | cons e rest =>
    unfold pathProb
    exact mul_nonneg (mul_nonneg (startQ_nonneg m h _) (emitQ_nonneg m h _ _))
      (rawFrom_nonneg m h rest e.1)

/- ### The accumulator loop `bestAcc`. -/

theorem bestAcc_mono (g : String → ℚ) :
    ∀ (l : List String) (acc : ℚ × Option String), acc.1 ≤ (bestAcc g acc l).1
  | [], acc => le_refl _
  | x :: rest, acc => by
    unfold bestAcc
    by_cases h : g x > acc.1
    · rw [if_pos h]
      exact le_trans (le_of_lt h) (bestAcc_mono g rest _)
    · rw [if_neg h]
      exact bestAcc_mono g rest acc

theorem bestAcc_ge (g : String → ℚ) :
    ∀ (l : List String) (acc : ℚ × Option String) (x : String), x ∈ l →
      g x ≤ (bestAcc g acc l).1
  | [], _, x, hx => by simp at hx
  | y :: rest, acc, x, hx => by
    unfold bestAcc
    rcases List.mem_cons.mp hx with rfl | hx'
    · by_cases h : g x > acc.1
      · rw [if_pos h]
        exact bestAcc_mono g rest _
      · rw [if_neg h]
        exact le_trans (not_lt.mp h) (bestAcc_mono g rest acc)
    · exact bestAcc_ge g rest _ x hx'

theorem bestAcc_cases (g : String → ℚ) :
    ∀ (l : List String) (acc : ℚ × Option String),
      bestAcc g acc l = acc ∨ ∃ x ∈ l, bestAcc g acc l = (g x, some x)
  | [], acc => Or.inl rfl
  | y :: rest, acc => by
    unfold bestAcc
    by_cases h : g y > acc.1
    · rw [if_pos h]
      rcases bestAcc_cases g rest (g y, some y) with h' | ⟨x, hx, h'⟩
      · exact Or.inr ⟨y, List.mem_cons_self _ _, h'⟩
      · exact Or.inr ⟨x, List.mem_cons_of_mem _ hx, h'⟩
    · rw [if_neg h]
      rcases bestAcc_cases g rest acc with h' | ⟨x, hx, h'⟩
      · exact Or.inl h'
      · exact Or.inr ⟨x, List.mem_cons_of_mem _ hx, h'⟩

/- ### The pure DP cell `pstep`. -/

theorem pstep_nonneg (m : Model) (v : VF) (sym cur : String) :
    0 ≤ (pstep m v sym cur).1 :=
  bestAcc_mono _ m.hmm_states (0, none)

theorem pstep_ge (m : Model) (v : VF) (sym cur prv : String)
    (hprv : prv ∈ m.hmm_states) :
    (v prv).1 * transQ m prv cur * emitQ m cur sym ≤ (pstep m v sym cur).1 :=
  bestAcc_ge _ m.hmm_states (0, none) prv hprv

theorem pstep_cases (m : Model) (v : VF) (sym cur : String) :
    pstep m v sym cur = (0, none) ∨
      ∃ prv ∈ m.hmm_states,
        pstep m v sym cur = ((v prv).1 * transQ m prv cur * emitQ m cur sym, some prv) :=
  bestAcc_cases _ m.hmm_states (0, none)

/- ### Monadic–pure equivalence for the decoder pipeline. -/

theorem colProb_colOf (m : Model) (v : VF) (s : String) (hs : s ∈ m.hmm_states) :
    colProb (colOf m v) s = .ok ((v s).1) := by
  unfold colProb colOf
  rw [lookup_map_self v m.hmm_states s hs]

theorem colBP_colOf (m : Model) (v : VF) (s : String) (hs : s ∈ m.hmm_states) :
    colBP (colOf m v) s = .ok ((v s).2) := by
  unfold colBP colOf
  rw [lookup_map_self v m.hmm_states s hs]

theorem initCol_eq (m : Model) (seq : List String) (hcov : Covers m seq)
    (s0 : String) (hs0 : s0 ∈ seq) :
    ∀ l : List String, (∀ s ∈ l, s ∈ m.hmm_states) →
      initCol m s0 l = .ok (l.map (fun s => (s, vf0 m s0 s))) := by
  intro l
  induction l with
  | nil => intro _; simp [initCol]
  | cons s rest ih =>
    intro hmem
    have hs : s ∈ m.hmm_states := hmem s (List.mem_cons_self _ _)
    have hstart : (m.start_probs.lookup s).isSome := hcov.1 s hs
    have hemit := hcov.2.2 s hs
    simp only [initCol, dget_eq_tableQ _ _ hstart,
      emit2_eq m s s0 hemit.1 (hemit.2 s0 hs0),
      ih (fun t ht => hmem t (List.mem_cons_of_mem _ ht)), tryOp_ok]
    rfl

theorem bestPrev_eq (m : Model) (seq : List String) (hcov : Covers m seq)
    (v : VF) (cur : String) (hcur : cur ∈ m.hmm_states)
    (sym : String) (hsym : sym ∈ seq) :
    ∀ l : List String, (∀ s ∈ l, s ∈ m.hmm_states) → ∀ acc : ℚ × Option String,
      bestPrev m (colOf m v) cur sym acc l =
        .ok (bestAcc (fun prv => (v prv).1 * transQ m prv cur * emitQ m cur sym) acc l) := by
  intro l
  induction l with
  | nil => intro _ acc; simp [bestPrev, bestAcc]
  | cons previous rest ih =>
    intro hmem acc
    have hp : previous ∈ m.hmm_states := hmem previous (List.mem_cons_self _ _)
    have htr := hcov.2.1 previous hp
    have hem := hcov.2.2 cur hcur
    simp only [bestPrev, colProb_colOf m v previous hp,
      trans2_eq m previous cur htr.1 (htr.2 cur hcur),
      emit2_eq m cur sym hem.1 (hem.2 sym hsym), tryOp_ok]
    rw [ih (fun t ht => hmem t (List.mem_cons_of_mem _ ht))]
    rfl

theorem nextCol_eq (m : Model) (seq : List String) (hcov : Covers m seq)
    (v : VF) (sym : String) (hsym : sym ∈ seq) :
    ∀ l : List String, (∀ s ∈ l, s ∈ m.hmm_states) →
      nextCol m (colOf m v) sym l = .ok (l.map (fun cur => (cur, stepVF m v sym cur))) := by
  intro l
  induction l with
  | nil => intro _; simp [nextCol]
  | cons cur rest ih =>
    intro hmem
    have hc : cur ∈ m.hmm_states := hmem cur (List.mem_cons_self _ _)
    simp only [nextCol,
      bestPrev_eq m seq hcov v cur hc sym hsym m.hmm_states (fun _ ht => ht),
      ih (fun t ht => hmem t (List.mem_cons_of_mem _ ht)), tryOp_ok]
    rfl

theorem buildCols_eq (m : Model) (seq : List String) (hcov : Covers m seq) :
    ∀ syms : List String, (∀ y ∈ syms, y ∈ seq) → ∀ v : VF,
      buildCols m (colOf m v) syms = .ok ((colsVF m v syms).map (colOf m)) := by
  intro syms
  induction syms with
  | nil => intro _ v; simp [buildCols, colsVF]
  | cons sym rest ih =>
    intro hmem v
    have hy : sym ∈ seq := hmem sym (List.mem_cons_self _ _)
    simp only [buildCols, nextCol_eq m seq hcov v sym hy m.hmm_states (fun _ ht => ht),
      tryOp_ok]
    have hmap : (m.hmm_states.map fun cur => (cur, stepVF m v sym cur)) =
        colOf m (stepVF m v sym) := rfl
    rw [hmap, ih (fun t ht => hmem t (List.mem_cons_of_mem _ ht)) (stepVF m v sym),
      tryOp_ok]
    rfl

/- ### Structure of the pure column list. -/

theorem iterVF_concat (m : Model) :
    ∀ (xs : List String) (y : String) (v : VF),
      iterVF m v (xs ++ [y]) = stepVF m (iterVF m v xs) y
  | [], y, v => rfl
  | x :: xs, y, v => iterVF_concat m xs y (stepVF m v x)

theorem iterVF_nonneg (m : Model) :
    ∀ (syms : List String) (v : VF), (∀ s, 0 ≤ (v s).1) →
      ∀ s, 0 ≤ (iterVF m v syms s).1
  | [], v, hv => hv
  | sym :: rest, v, hv => by
    unfold iterVF
    exact iterVF_nonneg m rest (stepVF m v sym) (fun s => pstep_nonneg m v sym s)

theorem colsVF_map_getLastD (m : Model) (f : VF → Col) :
    ∀ (syms : List String) (v : VF) (d : Col),
      ((colsVF m v syms).map f).getLastD d = f (iterVF m v syms)
  | [], v, d => rfl
  | sym :: rest, v, d => by
    unfold colsVF iterVF
    rw [List.map_cons, List.getLastD_cons]
    exact colsVF_map_getLastD m f rest (stepVF m v sym) (f v)

theorem colsVF_map_getD (m : Model) (f : VF → Col) :
    ∀ (syms : List String) (k : Nat), k ≤ syms.length → ∀ (v : VF) (d : Col),
      ((colsVF m v syms).map f).getD k d = f (iterVF m v (syms.take k))
  | [], 0, _, v, d => rfl
  | [], k + 1, hk, v, d => by simp at hk
  | sym :: rest, 0, _, v, d => rfl
  | sym :: rest, k + 1, hk, v, d => by
    unfold colsVF
    rw [List.map_cons]
    have : ((f v :: (colsVF m (stepVF m v sym) rest).map f).getD (k + 1) d) =
        ((colsVF m (stepVF m v sym) rest).map f).getD k d := by
      simp [List.getD_cons_succ]
    rw [this, colsVF_map_getD m f rest k (Nat.le_of_succ_le_succ hk) (stepVF m v sym) d]
    rfl

/- ### The final `max` over the last column. -/

theorem maxKeyAux (v : VF) :
    ∀ (l : List String) (a : String) (pa : ℚ), pa = (v a).1 →
      (l.foldl (fun acc s => if (v s).1 > acc.2 then (s, (v s).1) else acc) (a, pa)).2 =
        (v (l.foldl (fun acc s => if (v s).1 > acc.2 then (s, (v s).1) else acc) (a, pa)).1).1 ∧
      ((l.foldl (fun acc s => if (v s).1 > acc.2 then (s, (v s).1) else acc) (a, pa)).1 = a ∨
       (l.foldl (fun acc s => if (v s).1 > acc.2 then (s, (v s).1) else acc) (a, pa)).1 ∈ l) ∧
      pa ≤ (l.foldl (fun acc s => if (v s).1 > acc.2 then (s, (v s).1) else acc) (a, pa)).2 ∧
      ∀ t ∈ l, (v t).1 ≤
        (l.foldl (fun acc s => if (v s).1 > acc.2 then (s, (v s).1) else acc) (a, pa)).2
  | [], a, pa, hpa => by
    refine ⟨hpa, Or.inl rfl, le_refl _, ?_⟩
    intro t ht
    simp at ht
  | x :: l, a, pa, hpa => by
    rw [List.foldl_cons]
    by_cases hx : (v x).1 > (a, pa).2
    · rw [if_pos hx]
      have ih := maxKeyAux v l x (v x).1 rfl
      refine ⟨ih.1, ?_, ?_, ?_⟩
      · rcases ih.2.1 with h | h
        · rw [h]; exact Or.inr (List.mem_cons_self _ _)
        · exact Or.inr (List.mem_cons_of_mem _ h)
      · exact le_trans (le_of_lt hx) ih.2.2.1
      · intro t ht
        rcases List.mem_cons.mp ht with rfl | ht'
        · exact ih.2.2.1
        · exact ih.2.2.2 t ht'
    · rw [if_neg hx]
      have ih := maxKeyAux v l a pa hpa
      refine ⟨ih.1, ?_, ih.2.2.1, ?_⟩
      · rcases ih.2.1 with h | h
        · exact Or.inl h
        · exact Or.inr (List.mem_cons_of_mem _ h)
      · intro t ht
        rcases List.mem_cons.mp ht with rfl | ht'
        · exact le_trans (not_lt.mp hx) ih.2.2.1
        · exact ih.2.2.2 t ht'

theorem maxKeyCol_cons (v : VF) (s1 : String) (tl : List String) :
    ∃ f0, maxKeyCol ((s1 :: tl).map (fun s => (s, v s))) = some f0 ∧ f0 ∈ s1 :: tl ∧
      ∀ t ∈ s1 :: tl, (v t).1 ≤ (v f0).1 := by
  have h := maxKeyAux v tl s1 (v s1).1 rfl
  have hfold : maxKeyCol ((s1 :: tl).map (fun s => (s, v s))) =
      some ((tl.foldl (fun acc s => if (v s).1 > acc.2 then (s, (v s).1) else acc)
        (s1, (v s1).1)).1) := by
    rw [List.map_cons]
    simp only [maxKeyCol]
    rw [List.foldl_map]
  refine ⟨_, hfold, ?_, ?_⟩
  · rcases h.2.1 with he | he
    · rw [he]; exact List.mem_cons_self _ _
    · exact List.mem_cons_of_mem _ he
  · intro t ht
    rw [← h.1]
    rcases List.mem_cons.mp ht with rfl | ht'
    · exact h.2.2.1
    · exact h.2.2.2 t ht'

/- ### Last elements and appended factors. -/

theorem lastOf_mem (S : List String) :
    ∀ (l : List String) (d : String), d ∈ S → (∀ x ∈ l, x ∈ S) → lastOf d l ∈ S
  | [], _, hd, _ => hd
  | x :: xs, d, _, hl =>
    lastOf_mem S xs x (hl x (List.mem_cons_self _ _))
      (fun t ht => hl t (List.mem_cons_of_mem _ ht))

theorem lastOf_concat (x : String) :
    ∀ (xs : List String) (d : String), lastOf d (xs ++ [x]) = x
  | [], _ => rfl
  | y :: ys, _ => lastOf_concat x ys y

theorem rawFrom_concat (m : Model) (s sym : String) :
    ∀ (L : List (String × String)) (last : String),
      rawFrom m last (L ++ [(s, sym)]) =
        rawFrom m last L * transQ m (lastOf last (L.map Prod.fst)) s * emitQ m s sym
  | [], last => by
    simp [rawFrom, lastOf]
  | (c, y) :: L', last => by
    have ih := rawFrom_concat m s sym L' c
    rw [List.cons_append]
    simp only [rawFrom]
    rw [ih, List.map_cons]
    have hlast : lastOf last (c :: L'.map Prod.fst) = lastOf c (L'.map Prod.fst) := rfl
    rw [hlast]
    ring

theorem pathProb_concat (m : Model) (s sym p0 y0 : String) (L : List (String × String)) :
    pathProb m (((p0, y0) :: L) ++ [(s, sym)]) =
      pathProb m ((p0, y0) :: L) * transQ m (lastOf p0 (L.map Prod.fst)) s * emitQ m s sym := by
  rw [List.cons_append]
  simp only [pathProb]
  rw [rawFrom_concat]
  ring

/- ### The DP value dominates every path (upper bound). -/

theorem dpUB (m : Model) (hnn : NonnegModel m) :
    ∀ (L : List (String × String)) (v : VF), (∀ s, 0 ≤ (v s).1) →
      ∀ prv, prv ∈ m.hmm_states → (∀ x ∈ L.map Prod.fst, x ∈ m.hmm_states) →
        (v prv).1 * rawFrom m prv L ≤
          (iterVF m v (L.map Prod.snd) (lastOf prv (L.map Prod.fst))).1
  | [], v, hv, prv, hprv, _ => by
    simp [rawFrom, iterVF, lastOf]
  | (q, sym) :: L', v, hv, prv, hprv, hL => by
    have hq : q ∈ m.hmm_states := hL q (by simp)
    have hL' : ∀ x ∈ L'.map Prod.fst, x ∈ m.hmm_states := by
      intro x hx
      exact hL x (by simp [hx])
    have step1 : (v prv).1 * transQ m prv q * emitQ m q sym ≤ (stepVF m v sym q).1 :=
      pstep_ge m v sym q prv hprv
    have ih := dpUB m hnn L' (stepVF m v sym)
      (fun s => pstep_nonneg m v sym s) q hq hL'
    calc (v prv).1 * rawFrom m prv ((q, sym) :: L')
        = ((v prv).1 * transQ m prv q * emitQ m q sym) * rawFrom m q L' := by
          simp only [rawFrom]; ring
      _ ≤ (stepVF m v sym q).1 * rawFrom m q L' :=
          mul_le_mul_of_nonneg_right step1 (rawFrom_nonneg m hnn L' q)
      _ ≤ (iterVF m (stepVF m v sym) (L'.map Prod.snd) (lastOf q (L'.map Prod.fst))).1 := ih
      _ = (iterVF m v (((q, sym) :: L').map Prod.snd)
            (lastOf prv (((q, sym) :: L').map Prod.fst))).1 := rfl

/- ### Appending one step to a zipped path. -/

theorem pathProb_concat_zip (m : Model) (A B : List String) (a0 b0 s sym : String)
    (hAB : A.length = B.length) :
    pathProb m ((a0 :: (A ++ [s])).zip (b0 :: (B ++ [sym]))) =
      pathProb m ((a0 :: A).zip (b0 :: B)) * transQ m (lastOf a0 A) s * emitQ m s sym := by
  have h1 : (a0 :: (A ++ [s])).zip (b0 :: (B ++ [sym])) =
      ((a0, b0) :: A.zip B) ++ [(s, sym)] := by
    rw [List.zip_cons_cons, List.zip_append hAB, ← List.cons_append]
    rfl
  rw [h1, pathProb_concat, List.map_fst_zip A B (le_of_eq hAB), List.zip_cons_cons]

/- ### Traceback reconstructs a path achieving the DP value. -/

theorem dpTB (m : Model) (hnn : NonnegModel m) (s0 : String) (rest : List String) :
    ∀ k, k ≤ rest.length → ∀ s, s ∈ m.hmm_states →
      0 < (iterVF m (vf0 m s0) (rest.take k) s).1 →
      ∀ acc : List (Option String),
        ∃ σ : List String, σ.length = k ∧ (∀ x ∈ σ, x ∈ m.hmm_states) ∧
          tracebackLoop ((colsVF m (vf0 m s0) rest).map (colOf m)) (downFrom k) (some s) acc =
            .ok (σ.map some ++ acc) ∧
          pathProb m ((σ ++ [s]).zip ((s0 :: rest).take (k + 1))) =
            (iterVF m (vf0 m s0) (rest.take k) s).1 := by
  intro k
  induction k with
  | zero =>
    intro _ s hs hpos acc
    refine ⟨[], rfl, by simp, ?_, ?_⟩
    · simp [downFrom, tracebackLoop]
    · simp [pathProb, rawFrom, vf0, iterVF]
  | succ k ih =>
    intro hk1 s hs hpos acc
    have hklt : k < rest.length := hk1
    obtain ⟨sym, hsymeq⟩ : ∃ y, rest[k]? = some y :=
      ⟨rest[k], List.getElem?_eq_getElem hklt⟩
    have htake : rest.take (k + 1) = rest.take k ++ [sym] := by
      rw [List.take_succ, hsymeq]
      rfl
    have hstep : iterVF m (vf0 m s0) (rest.take (k + 1)) =
        stepVF m (iterVF m (vf0 m s0) (rest.take k)) sym := by
      rw [htake, iterVF_concat]
    rw [hstep] at hpos
    rcases pstep_cases m (iterVF m (vf0 m s0) (rest.take k)) sym s with hzero | ⟨prv, hprv, heq⟩
    · exfalso
      have hz1 : (stepVF m (iterVF m (vf0 m s0) (rest.take k)) sym s).1 = 0 := by
        show (pstep m (iterVF m (vf0 m s0) (rest.take k)) sym s).1 = 0
        rw [hzero]
      rw [hz1] at hpos
      exact absurd hpos (lt_irrefl 0)
    · have hval : (stepVF m (iterVF m (vf0 m s0) (rest.take k)) sym s).1 =
          (iterVF m (vf0 m s0) (rest.take k) prv).1 * transQ m prv s * emitQ m s sym := by
        show (pstep m (iterVF m (vf0 m s0) (rest.take k)) sym s).1 = _
        rw [heq]
      have hbp : (stepVF m (iterVF m (vf0 m s0) (rest.take k)) sym s).2 = some prv := by
        show (pstep m (iterVF m (vf0 m s0) (rest.take k)) sym s).2 = _
        rw [heq]
      have hvk_nonneg : 0 ≤ (iterVF m (vf0 m s0) (rest.take k) prv).1 :=
        iterVF_nonneg m (rest.take k) (vf0 m s0)
          (fun t => mul_nonneg (startQ_nonneg m hnn t) (emitQ_nonneg m hnn t s0)) prv
      have hvk_pos : 0 < (iterVF m (vf0 m s0) (rest.take k) prv).1 := by
        rcases lt_or_eq_of_le hvk_nonneg with h | h
        · exact h
        · exfalso
          rw [hval, ← h] at hpos
          simp at hpos
      have hcolk1 : ((colsVF m (vf0 m s0) rest).map (colOf m)).getD (k + 1) [] =
          colOf m (iterVF m (vf0 m s0) (rest.take (k + 1))) :=
        colsVF_map_getD m (colOf m) rest (k + 1) hk1 (vf0 m s0) []
      have hloop : tracebackLoop ((colsVF m (vf0 m s0) rest).map (colOf m))
            (downFrom (k + 1)) (some s) acc =
          tracebackLoop ((colsVF m (vf0 m s0) rest).map (colOf m))
            (downFrom k) (some prv) (some prv :: acc) := by
        simp only [downFrom, tracebackLoop]
        rw [hcolk1, colBP_colOf m _ s hs, tryOp_ok, hstep, hbp]
      rcases ih (le_of_lt hklt) prv hprv hvk_pos (some prv :: acc) with
        ⟨σ', hlen, hmem, htr, hprob⟩
      refine ⟨σ' ++ [prv], ?_, ?_, ?_, ?_⟩
      · rw [List.length_append, hlen]
        rfl
      · intro x hx
        rcases List.mem_append.mp hx with h | h
        · exact hmem x h
        · rw [List.mem_singleton.mp h]
          exact hprv
      · rw [hloop, htr, List.map_append]
        simp
      · have htake2 : (s0 :: rest).take (k + 1 + 1) = (s0 :: rest.take k) ++ [sym] := by
          rw [List.take_succ_cons, htake]
          rfl
        rw [htake2, hstep, hval]
        have hlen_take : (rest.take k).length = k := by
          rw [List.length_take]
          exact min_eq_left (le_of_lt hklt)
        rw [List.take_succ_cons] at hprob
        cases σ' with
        | nil =>
          have hk0 : k = 0 := by simpa using hlen.symm
          subst hk0
          simp only [List.take_zero, List.nil_append, List.singleton_append,
            List.cons_append, List.zip_cons_cons, List.zip_nil_right,
            pathProb, rawFrom] at hprob ⊢
          rw [← hprob]
          ring
        | cons a0 σ'' =>
          have hAB : (σ'' ++ [prv]).length = (rest.take k).length := by
            rw [List.length_append, hlen_take]
            have : σ''.length + 1 = k := by simpa using hlen
            simpa using this
          simp only [List.cons_append] at hprob ⊢
          rw [pathProb_concat_zip m (σ'' ++ [prv]) (rest.take k) a0 s0 s sym hAB]
          rw [lastOf_concat prv σ'' a0, hprob]

/- ### The decoder run, assembled: under coverage, nonnegativity and the
   existence of one positive-probability path, `find_best_path` succeeds,
   returns states only, and maximizes `pathProb`. -/

theorem viterbi_run (m : Model) (s0 : String) (rest : List String)
    (hcov : Covers m (s0 :: rest)) (hnn : NonnegModel m)
    (π : List String) (hπlen : π.length = (s0 :: rest).length)
    (hπmem : ∀ x ∈ π, x ∈ m.hmm_states)
    (hπpos : 0 < pathProb m (π.zip (s0 :: rest))) :
    ∃ πT : List String,
      find_best_path m (s0 :: rest) = .ok (πT.map some) ∧
      πT.length = (s0 :: rest).length ∧
      (∀ x ∈ πT, x ∈ m.hmm_states) ∧
      0 < pathProb m (πT.zip (s0 :: rest)) ∧
      ∀ ρ : List String, ρ.length = (s0 :: rest).length →
        (∀ x ∈ ρ, x ∈ m.hmm_states) →
        pathProb m (ρ.zip (s0 :: rest)) ≤ pathProb m (πT.zip (s0 :: rest)) := by
  cases π with
  | nil => simp at hπlen
  | cons p0 pr =>
  have hp0 : p0 ∈ m.hmm_states := hπmem p0 (List.mem_cons_self _ _)
  have hne : m.hmm_states ≠ [] := by
    intro h
    rw [h] at hp0
    simp at hp0
  obtain ⟨s1, tl, hstates⟩ : ∃ s1 tl, m.hmm_states = s1 :: tl := by
    cases hst : m.hmm_states with
    | nil => exact absurd hst hne
    | cons a l => exact ⟨a, l, rfl⟩
  have hnn0 : ∀ t, 0 ≤ (vf0 m s0 t).1 :=
    fun t => mul_nonneg (startQ_nonneg m hnn t) (emitQ_nonneg m hnn t s0)
  obtain ⟨f0, hf0, hf0mem, hf0max⟩ :
      ∃ f0, maxKeyCol ((s1 :: tl).map (fun s => (s, iterVF m (vf0 m s0) rest s))) = some f0 ∧
        f0 ∈ s1 :: tl ∧
        ∀ t ∈ s1 :: tl, (iterVF m (vf0 m s0) rest t).1 ≤ (iterVF m (vf0 m s0) rest f0).1 :=
    maxKeyCol_cons (iterVF m (vf0 m s0) rest) s1 tl
  have hf0mem' : f0 ∈ m.hmm_states := by rw [hstates]; exact hf0mem
  have hf0max' : ∀ t ∈ m.hmm_states,
      (iterVF m (vf0 m s0) rest t).1 ≤ (iterVF m (vf0 m s0) rest f0).1 := by
    intro t ht
    rw [hstates] at ht
    exact hf0max t ht
  -- every admissible path is dominated by the DP value at `f0`
  have hub : ∀ ρ : List String, ρ.length = (s0 :: rest).length →
      (∀ x ∈ ρ, x ∈ m.hmm_states) →
      pathProb m (ρ.zip (s0 :: rest)) ≤ (iterVF m (vf0 m s0) rest f0).1 := by
    intro ρ hρlen hρmem
    cases ρ with
    | nil => simp at hρlen
    | cons r0 rr =>
      have hr0 : r0 ∈ m.hmm_states := hρmem r0 (List.mem_cons_self _ _)
      have hrr : rr.length = rest.length := by simpa using hρlen
      have hfst : (rr.zip rest).map Prod.fst = rr := List.map_fst_zip _ _ (le_of_eq hrr)
      have hsnd : (rr.zip rest).map Prod.snd = rest :=
        List.map_snd_zip _ _ (le_of_eq hrr.symm)
      have h1 := dpUB m hnn (rr.zip rest) (vf0 m s0) hnn0 r0 hr0
        (by rw [hfst]; exact fun x hx => hρmem x (List.mem_cons_of_mem _ hx))
      rw [hfst, hsnd] at h1
      have h2 : pathProb m ((r0 :: rr).zip (s0 :: rest)) =
          (vf0 m s0 r0).1 * rawFrom m r0 (rr.zip rest) := by
        rw [List.zip_cons_cons]
        simp only [pathProb]
        rfl
      rw [h2]
      refine le_trans h1 (hf0max' _ ?_)
      exact lastOf_mem m.hmm_states rr r0 hr0
        (fun x hx => hρmem x (List.mem_cons_of_mem _ hx))
  have hposf0 : 0 < (iterVF m (vf0 m s0) rest f0).1 :=
    lt_of_lt_of_le hπpos (hub (p0 :: pr) hπlen hπmem)
  -- run the decoder symbolically down to the traceback
  have hinit : initCol m s0 m.hmm_states = .ok (colOf m (vf0 m s0)) :=
    initCol_eq m (s0 :: rest) hcov s0 (List.mem_cons_self _ _) m.hmm_states (fun _ h => h)
  have hbuild : buildCols m (colOf m (vf0 m s0)) rest =
      .ok ((colsVF m (vf0 m s0) rest).map (colOf m)) :=
    buildCols_eq m (s0 :: rest) hcov rest
      (fun y hy => List.mem_cons_of_mem _ hy) (vf0 m s0)
  have hlastcol : ((colsVF m (vf0 m s0) rest).map (colOf m)).getLastD [] =
      colOf m (iterVF m (vf0 m s0) rest) :=
    colsVF_map_getLastD m (colOf m) rest (vf0 m s0) []
  have hfind : find_best_path m (s0 :: rest) =
      tracebackLoop ((colsVF m (vf0 m s0) rest).map (colOf m))
        (downFrom rest.length) (some f0) [some f0] := by
    simp only [find_best_path]
    rw [hinit, tryOp_ok, hbuild, tryOp_ok, hlastcol]
    simp only [colOf]
    rw [hstates, hf0]
  -- traceback
  have hposf0' : 0 < (iterVF m (vf0 m s0) (rest.take rest.length) f0).1 := by
    rw [List.take_length]
    exact hposf0
  obtain ⟨σ, hσlen, hσmem, htr, hσprob⟩ :=
    dpTB m hnn s0 rest rest.length (le_refl _) f0 hf0mem' hposf0' [some f0]
  have htakeall : (s0 :: rest).take (rest.length + 1) = s0 :: rest := by
    have : (s0 :: rest).length = rest.length + 1 := rfl
    rw [← this, List.take_length]
  rw [htakeall, List.take_length] at hσprob
  refine ⟨σ ++ [f0], ?_, ?_, ?_, ?_, ?_⟩
  · rw [hfind, htr, List.map_append]
    rfl
  · simp [hσlen]
  · intro x hx
    rcases List.mem_append.mp hx with h | h
    · exact hσmem x h
    · rw [List.mem_singleton.mp h]
      exact hf0mem'
  · rw [hσprob]
    exact hposf0
  · intro ρ hρlen hρmem
    rw [hσprob]
    exact hub ρ hρlen hρmem

/- ### Scorer-side lemmas. -/

theorem safe_log_one : safe_log 1 = 0 := by
  unfold safe_log
  rw [if_neg one_ne_zero]
  norm_num

theorem safe_log_mul (a b : ℚ) : safe_log (a * b) = safe_log a + safe_log b := by
  unfold safe_log
  by_cases ha : a = 0
  · subst ha
    simp
  · by_cases hb : b = 0
    · subst hb
      simp
    · have hab : a * b ≠ 0 := mul_ne_zero ha hb
      rw [if_neg hab, if_neg ha, if_neg hb]
      have hcast : ((a * b : ℚ) : ℝ) = (a : ℝ) * (b : ℝ) := by push_cast; ring
      rw [hcast, Real.log_mul (by exact_mod_cast ha) (by exact_mod_cast hb),
        EReal.coe_add]

theorem dget_ok_val {α : Type} (d : List (String × α)) (k : String) (v : α)
    (h : dget d k = .ok v) : d.lookup k = some v := by
  unfold dget at h
  cases hl : d.lookup k with
  | none => rw [hl] at h; cases h
  | some w => rw [hl] at h; cases h; rfl

theorem trans2_ok_val (m : Model) (a b : String) (q : ℚ)
    (h : trans2 m a b = .ok q) : q = transQ m a b := by
  unfold trans2 at h
  cases hd : dget m.trans_probs a with
  | error e => rw [hd, tryOp_error] at h; cases h
  | ok row =>
    rw [hd, tryOp_ok] at h
    have h1 := dget_ok_val _ _ _ hd
    have h2 := dget_ok_val _ _ _ h
    unfold transQ tableQ
    rw [h1, Option.getD_some, h2, Option.getD_some]

theorem emit2_ok_val (m : Model) (a b : String) (q : ℚ)
    (h : emit2 m a b = .ok q) : q = emitQ m a b := by
  unfold emit2 at h
  cases hd : dget m.emit_probs a with
  | error e => rw [hd, tryOp_error] at h; cases h
  | ok row =>
    rw [hd, tryOp_ok] at h
    have h1 := dget_ok_val _ _ _ hd
    have h2 := dget_ok_val _ _ _ h
    unfold emitQ tableQ
    rw [h1, Option.getD_some, h2, Option.getD_some]

theorem logTerms_eq (m : Model) :
    ∀ (L : List (String × String)) (last : String),
      logTerms m last L = safe_log (rawFrom m last L)
  | [], _ => by
    simp [logTerms, rawFrom, safe_log_one]
  | (cur, sym) :: rest, last => by
    simp only [logTerms, rawFrom]
    rw [logTerms_eq m rest cur, safe_log_mul, safe_log_mul]

theorem scoreLoop_ok_elim (m : Model) :
    ∀ (L : List (String × String)) (last : String) (total : EReal)
      (r : String × EReal), scoreLoop m L last total = .ok r →
      r.1 = lastOf last (L.map Prod.fst) ∧
      r.2 = total + safe_log (rawFrom m last L)
  | [], last, total, r, h => by
    cases h
    constructor
    · rfl
    · show total = total + safe_log (rawFrom m last [])
      rw [show rawFrom m last [] = 1 from rfl, safe_log_one, add_zero]
  | (cur, base) :: rest, last, total, r, h => by
    simp only [scoreLoop] at h
    cases htr : trans2 m last cur with
    | error e => rw [htr, tryOp_error] at h; cases h
    | ok tp =>
      rw [htr, tryOp_ok] at h
      cases hem : emit2 m cur base with
      | error e => rw [hem, tryOp_error] at h; cases h
      | ok ep =>
        rw [hem, tryOp_ok] at h
        have ih := scoreLoop_ok_elim m rest cur
          (total + (safe_log tp + safe_log ep)) r h
        refine ⟨ih.1, ?_⟩
        rw [ih.2, trans2_ok_val m last cur tp htr, emit2_ok_val m cur base ep hem]
        simp only [rawFrom]
        rw [safe_log_mul, safe_log_mul, add_assoc]

theorem scoreLoop_error (m : Model) :
    ∀ (L : List (String × String)) (last : String) (total : EReal) (e : Err),
      scoreLoop m L last total = .error e → e = .keyError
  | [], _, _, _, h => by cases h
  | (cur, base) :: rest, last, total, e, h => by
    simp only [scoreLoop] at h
    cases htr : trans2 m last cur with
    | error e' =>
      rw [htr, tryOp_error] at h
      cases h
      exact trans2_error m last cur _ htr
    | ok tp =>
      rw [htr, tryOp_ok] at h
      cases hem : emit2 m cur base with
      | error e' =>
        rw [hem, tryOp_error] at h
        cases h
        exact emit2_error m cur base _ hem
      | ok ep =>
        rw [hem, tryOp_ok] at h
        exact scoreLoop_error m rest cur (total + (safe_log tp + safe_log ep)) e h

theorem scoreLoop_covFrom (m : Model) :
    ∀ (L : List (String × String)) (last : String) (total : EReal),
      covFrom m last L →
      scoreLoop m L last total =
        .ok (lastOf last (L.map Prod.fst), total + safe_log (rawFrom m last L))
  | [], last, total, _ => by
    simp only [scoreLoop]
    rw [show rawFrom m last [] = 1 from rfl, safe_log_one, add_zero]
    rfl
  | (cur, base) :: rest, last, total, hcov => by
    obtain ⟨h1, h2, h3, h4, h5⟩ := hcov
    simp only [scoreLoop]
    rw [trans2_eq m last cur h1 h2, tryOp_ok, emit2_eq m cur base h3 h4,
      tryOp_ok, scoreLoop_covFrom m rest cur _ h5]
    simp only [List.map_cons]
    have hlast : lastOf last (cur :: rest.map Prod.fst) = lastOf cur (rest.map Prod.fst) := rfl
    rw [hlast]
    simp only [rawFrom]
    rw [safe_log_mul, safe_log_mul, add_assoc]

theorem calc_ok_elim (m : Model) (p s : List String) (v : EReal)
    (h : calc_path_probability m p s = .ok v) :
    p.length = s.length ∧ v = safe_log (score_prod m p s) := by
  unfold calc_path_probability at h
  by_cases hlen : p.length ≠ s.length
  · rw [if_pos hlen] at h
    cases h
  · rw [if_neg hlen] at h
    push_neg at hlen
    refine ⟨hlen, ?_⟩
    cases hsl : scoreLoop m (p.zip s) "Start" 0 with
    | error e => rw [hsl, tryOp_error] at h; cases h
    | ok r =>
      rw [hsl, tryOp_ok] at h
      have hr := scoreLoop_ok_elim m (p.zip s) "Start" 0 r hsl
      have hfst : (p.zip s).map Prod.fst = p := List.map_fst_zip _ _ (le_of_eq hlen)
      rw [hfst] at hr
      by_cases hI : (r.1 == "I") = true
      · rw [if_pos hI] at h
        cases hend : trans2 m r.1 "End" with
        | error e => rw [hend, tryOp_error] at h; cases h
        | ok q =>
          rw [hend, tryOp_ok] at h
          cases h
          have hr1 : r.1 = "I" := eq_of_beq hI
          have hq := trans2_ok_val m r.1 "End" q hend
          rw [hr1] at hq
          have hlastI : lastOf "Start" p = "I" := by rw [← hr.1]; exact hr1
          unfold score_prod
          rw [if_pos hlastI, safe_log_mul, hr.2, hq, zero_add]
      · rw [if_neg hI] at h
        cases h
        have hlastI : lastOf "Start" p ≠ "I" := by
          intro hc
          apply hI
          rw [hr.1, hc]
          exact beq_self_eq_true _
        unfold score_prod
        rw [if_neg hlastI, mul_one, hr.2, zero_add]

theorem calc_covFrom (m : Model) (p s : List String) (hlen : p.length = s.length)
    (hcov : covFrom m "Start" (p.zip s))
    (hend : lastOf "Start" p = "I" →
      (m.trans_probs.lookup "I").isSome ∧
      (((m.trans_probs.lookup "I").getD []).lookup "End").isSome) :
    calc_path_probability m p s = .ok (safe_log (score_prod m p s)) := by
  unfold calc_path_probability
  rw [if_neg (by simp [hlen])]
  rw [scoreLoop_covFrom m (p.zip s) "Start" 0 hcov]
  simp only [tryOp_ok]
  have hfst : (p.zip s).map Prod.fst = p := List.map_fst_zip _ _ (le_of_eq hlen)
  rw [hfst]
  by_cases hI : lastOf "Start" p = "I"
  · have hb : (lastOf "Start" p == "I") = true := by rw [hI]; exact beq_self_eq_true _
    rw [if_pos hb, hI, trans2_eq m "I" "End" (hend hI).1 (hend hI).2]
    simp only [tryOp_ok]
    unfold score_prod
    rw [if_pos hI, safe_log_mul, zero_add]
  · have hb : (lastOf "Start" p == "I") = false := beq_false_of_ne hI
    rw [if_neg (by rw [hb]; exact Bool.false_ne_true)]
    unfold score_prod
    rw [if_neg hI, mul_one, zero_add]

theorem calc_error (m : Model) (p s : List String) (e : Err)
    (h : calc_path_probability m p s = .error e) :
    (p.length ≠ s.length ∧ e = .lengthMismatch) ∨
    (p.length = s.length ∧ e = .keyError) := by
  unfold calc_path_probability at h
  by_cases hlen : p.length ≠ s.length
  · rw [if_pos hlen] at h
    cases h
    exact Or.inl ⟨hlen, rfl⟩
  · rw [if_neg hlen] at h
    push_neg at hlen
    refine Or.inr ⟨hlen, ?_⟩
    cases hsl : scoreLoop m (p.zip s) "Start" 0 with
    | error e' =>
      rw [hsl, tryOp_error] at h
      cases h
      exact scoreLoop_error m (p.zip s) "Start" 0 e hsl
    | ok r =>
      rw [hsl, tryOp_ok] at h
      by_cases hI : (r.1 == "I") = true
      · rw [if_pos hI] at h
        cases hend : trans2 m r.1 "End" with
        | error e' =>
          rw [hend, tryOp_error] at h
          cases h
          exact trans2_error m r.1 "End" e hend
        | ok q => rw [hend, tryOp_ok] at h; cases h
      · rw [if_neg hI] at h
        cases h

/- ### Positive products have positive factors. -/

theorem pos_of_mul3 (a b c : ℚ) (ha : 0 ≤ a) (hb : 0 ≤ b) (hc : 0 ≤ c)
    (h : 0 < a * b * c) : 0 < a ∧ 0 < b ∧ 0 < c := by
  refine ⟨?_, ?_, ?_⟩
  · rcases lt_or_eq_of_le ha with h' | h'
    · exact h'
    · exfalso; rw [← h'] at h; simp at h
  · rcases lt_or_eq_of_le hb with h' | h'
    · exact h'
    · exfalso; rw [← h'] at h; simp at h
  · rcases lt_or_eq_of_le hc with h' | h'
    · exact h'
    · exfalso; rw [← h'] at h; simp at h

theorem rawFrom_pos_factors (m : Model) (hnn : NonnegModel m) :
    ∀ (L : List (String × String)) (last : String),
      0 < rawFrom m last L → posFrom m last L
  | [], _, _ => trivial
  | (cur, sym) :: rest, last, h => by
    rw [show rawFrom m last ((cur, sym) :: rest) =
      transQ m last cur * emitQ m cur sym * rawFrom m cur rest from rfl] at h
    obtain ⟨h1, h2, h3⟩ := pos_of_mul3 _ _ _ (transQ_nonneg m hnn _ _)
      (emitQ_nonneg m hnn _ _) (rawFrom_nonneg m hnn rest cur) h
    exact ⟨h1, h2, rawFrom_pos_factors m hnn rest cur h3⟩

theorem pathProb_pos_factors (m : Model) (hnn : NonnegModel m)
    (L : List (String × String)) (h : 0 < pathProb m L) : posPath m L := by
  cases L with
  | nil => trivial
  | cons e rest =>
    obtain ⟨p0, y0⟩ := e
    rw [show pathProb m ((p0, y0) :: rest) =
      startQ m p0 * emitQ m p0 y0 * rawFrom m p0 rest from rfl] at h
    obtain ⟨h1, h2, h3⟩ := pos_of_mul3 _ _ _ (startQ_nonneg m hnn _)
      (emitQ_nonneg m hnn _ _) (rawFrom_nonneg m hnn rest p0) h
    exact ⟨h1, h2, rawFrom_pos_factors m hnn rest p0 h3⟩

/- ### Reference-model coverage of the scorer lookups. -/

theorem refCovFrom :
    ∀ (L : List (String × String)) (last : String),
      last ∈ (["Start", "E", "5", "I"] : List String) →
      (∀ e ∈ L, e.1 ∈ hmm_states ∧ e.2 ∈ dna_bases) →
      covFrom refModel last L
  | [], _, _, _ => trivial
  | (cur, base) :: rest, last, hlast, hL => by
    have hc := hL (cur, base) (List.mem_cons_self _ _)
    have key : ∀ l ∈ (["Start", "E", "5", "I"] : List String),
        ∀ c ∈ hmm_states, ∀ b ∈ dna_bases,
        (refModel.trans_probs.lookup l).isSome ∧
        (((refModel.trans_probs.lookup l).getD []).lookup c).isSome ∧
        (refModel.emit_probs.lookup c).isSome ∧
        (((refModel.emit_probs.lookup c).getD []).lookup b).isSome := by decide
    have hk := key last hlast cur hc.1 base hc.2
    refine ⟨hk.1, hk.2.1, hk.2.2.1, hk.2.2.2, ?_⟩
    refine refCovFrom rest cur (List.mem_cons_of_mem _ hc.1) ?_
    exact fun e he => hL e (List.mem_cons_of_mem _ he)

/- ### Concrete table values of the reference model. -/

theorem tqSE : transQ refModel "Start" "E" = 1 := by with_unfolding_all decide

theorem tqEE : transQ refModel "E" "E" = 9 / 10 := by with_unfolding_all decide

theorem tqE5 : transQ refModel "E" "5" = 1 / 10 := by with_unfolding_all decide

theorem tq5I : transQ refModel "5" "I" = 1 := by with_unfolding_all decide

theorem tqII : transQ refModel "I" "I" = 9 / 10 := by with_unfolding_all decide

theorem tqIEnd : transQ refModel "I" "End" = 1 / 10 := by with_unfolding_all decide

theorem eqEA : emitQ refModel "E" "A" = 1 / 4 := by with_unfolding_all decide

theorem eqEC : emitQ refModel "E" "C" = 1 / 4 := by with_unfolding_all decide

theorem eqEG : emitQ refModel "E" "G" = 1 / 4 := by with_unfolding_all decide

theorem eqET : emitQ refModel "E" "T" = 1 / 4 := by with_unfolding_all decide

theorem eq5G : emitQ refModel "5" "G" = 19 / 20 := by with_unfolding_all decide

theorem eqIA : emitQ refModel "I" "A" = 2 / 5 := by with_unfolding_all decide

theorem eqIC : emitQ refModel "I" "C" = 1 / 10 := by with_unfolding_all decide

theorem eqIG : emitQ refModel "I" "G" = 1 / 10 := by with_unfolding_all decide

theorem eqIT : emitQ refModel "I" "T" = 2 / 5 := by with_unfolding_all decide

/- ### Claim C1. -/

/-- C1 counterexample: under the reference model and the sequence `AGTT`, the
    decoder returns `E5II`, yet `calc_path_probability` scores the all-`E`
    path strictly higher, because the scorer adds the `I → End` factor that
    the decoder never weighs.  This refutes
    `score(model, decode(model, sequence), sequence) ≥ score(model, path, sequence)`
    as stated. -/
theorem C1_counterexample :
    find_best_path refModel (letters "AGTT") =
        .ok [some "E", some "5", some "I", some "I"] ∧
    calc_path_probability refModel (letters "E5II") (letters "AGTT") =
        .ok (safe_log (171 / 500000)) ∧
    calc_path_probability refModel (letters "EEEE") (letters "AGTT") =
        .ok (safe_log (729 / 256000)) ∧
    safe_log (171 / 500000 : ℚ) < safe_log (729 / 256000 : ℚ) := by
  have hzip1 : (letters "E5II").zip (letters "AGTT") =
      [("E", "A"), ("5", "G"), ("I", "T"), ("I", "T")] := by with_unfolding_all decide
  have hzip2 : (letters "EEEE").zip (letters "AGTT") =
      [("E", "A"), ("E", "G"), ("E", "T"), ("E", "T")] := by with_unfolding_all decide
  have hprod1 : score_prod refModel (letters "E5II") (letters "AGTT") =
      (171 / 500000 : ℚ) := by
    unfold score_prod
    rw [hzip1, if_pos (show lastOf "Start" (letters "E5II") = "I" from by
      with_unfolding_all decide), tqIEnd]
    norm_num [rawFrom, tqSE, tqE5, tq5I, tqII, eqEA, eq5G, eqIT]
  have hprod2 : score_prod refModel (letters "EEEE") (letters "AGTT") =
      (729 / 256000 : ℚ) := by
    unfold score_prod
    rw [hzip2, if_neg (show ¬lastOf "Start" (letters "EEEE") = "I" from by
      with_unfolding_all decide)]
    norm_num [rawFrom, tqSE, tqEE, eqEA, eqEG, eqET]
  refine ⟨by with_unfolding_all decide, ?_, ?_, ?_⟩
  · have h := calc_covFrom refModel (letters "E5II") (letters "AGTT")
      (by with_unfolding_all decide) (by with_unfolding_all decide)
      (fun _ => by with_unfolding_all decide)
    rw [hprod1] at h
    exact h
  · have h := calc_covFrom refModel (letters "EEEE") (letters "AGTT")
      (by with_unfolding_all decide) (by with_unfolding_all decide)
      (fun hc => absurd hc (by with_unfolding_all decide))
    rw [hprod2] at h
    exact h
  · unfold safe_log
    rw [if_neg (by norm_num), if_neg (by norm_num)]
    rw [EReal.coe_lt_coe_iff]
    apply Real.log_lt_log
    · norm_num
    · push_cast
      norm_num

/-- C1 (amended): for every model whose tables cover the required keys with
    nonnegative probabilities, and every sequence admitting at least one
    state path of positive probability, `find_best_path` succeeds and the
    returned path maximizes the path probability that the decoder weighs —
    the product of start, transition and emission factors, i.e. the scorer's
    probability without the final `End` factor. -/
theorem C1_decode_maximizes_raw_probability (m : Model) (seq : List String)
    (hcov : Covers m seq) (hnn : NonnegModel m)
    (π : List String) (hπlen : π.length = seq.length)
    (hπmem : ∀ x ∈ π, x ∈ m.hmm_states)
    (hπpos : 0 < pathProb m (π.zip seq)) :
    ∃ πT : List String,
      find_best_path m seq = .ok (πT.map some) ∧
      ∀ ρ : List String, ρ.length = seq.length → (∀ x ∈ ρ, x ∈ m.hmm_states) →
        pathProb m (ρ.zip seq) ≤ pathProb m (πT.zip seq) := by
  cases seq with
  | nil =>
    cases π with
    | nil => simp [pathProb] at hπpos
    | cons a l => simp at hπlen
  | cons s0 rest =>
    obtain ⟨πT, h1, _, _, _, h5⟩ := viterbi_run m s0 rest hcov hnn π hπlen hπmem hπpos
    exact ⟨πT, h1, h5⟩

/-- C1 witness: the amended claim applied to the reference model and the
    one-symbol sequence `A`, with the all-`E` path as the positive path. -/
theorem C1_witness :
    ∃ πT : List String,
      find_best_path refModel ["A"] = .ok (πT.map some) ∧
      ∀ ρ : List String, ρ.length = (["A"] : List String).length →
        (∀ x ∈ ρ, x ∈ refModel.hmm_states) →
        pathProb refModel (ρ.zip ["A"]) ≤ pathProb refModel (πT.zip ["A"]) :=
  C1_decode_maximizes_raw_probability refModel ["A"]
    (by with_unfolding_all decide) (by with_unfolding_all decide)
    ["E"] rfl (by decide) (by with_unfolding_all decide)

/- ### Claim C2. -/

/-- C2 counterexample: `toyModel` is a valid model (all rows sum to 1), yet
    on the sequence `aa` — whose every state path has probability zero — the
    decoder returns a list whose first element is Python's `None`, which is
    not a state of the alphabet. -/
theorem C2_counterexample :
    (toyModel.start_probs.map Prod.snd).sum = 1 ∧
    (∀ r ∈ toyModel.trans_probs, (r.2.map Prod.snd).sum = 1) ∧
    (∀ r ∈ toyModel.emit_probs, (r.2.map Prod.snd).sum = 1) ∧
    find_best_path toyModel (letters "aa") = .ok [none, some "X"] ∧
    ¬∀ x ∈ [(none : Option String), some "X"],
        ∃ t ∈ toyModel.hmm_states, x = some t := by
  with_unfolding_all decide

/-- C2 (amended): for every model whose tables cover the required keys with
    nonnegative probabilities, and every sequence admitting at least one
    state path of positive probability, `find_best_path` returns a list of
    exactly `N` elements, each a state of the model's alphabet. -/
theorem C2_decode_length_and_alphabet (m : Model) (seq : List String)
    (hcov : Covers m seq) (hnn : NonnegModel m)
    (π : List String) (hπlen : π.length = seq.length)
    (hπmem : ∀ x ∈ π, x ∈ m.hmm_states)
    (hπpos : 0 < pathProb m (π.zip seq)) :
    ∃ πT : List String,
      find_best_path m seq = .ok (πT.map some) ∧
      πT.length = seq.length ∧
      ∀ x ∈ πT, x ∈ m.hmm_states := by
  cases seq with
  | nil =>
    cases π with
    | nil => simp [pathProb] at hπpos
    | cons a l => simp at hπlen
  | cons s0 rest =>
    obtain ⟨πT, h1, h2, h3, _, _⟩ := viterbi_run m s0 rest hcov hnn π hπlen hπmem hπpos
    exact ⟨πT, h1, h2, h3⟩

/-- C2 witness: the amended claim applied to the reference model and the
    one-symbol sequence `C`. -/
theorem C2_witness :
    ∃ πT : List String,
      find_best_path refModel ["C"] = .ok (πT.map some) ∧
      πT.length = (["C"] : List String).length ∧
      ∀ x ∈ πT, x ∈ refModel.hmm_states :=
  C2_decode_length_and_alphabet refModel ["C"]
    (by with_unfolding_all decide) (by with_unfolding_all decide)
    ["E"] rfl (by decide) (by with_unfolding_all decide)

/- ### Claim C3. -/

/-- C3 confirmed: under the reference model, scoring the path
    `EEEEEEEEEEEEEEEEEE5IIIIIII` against `CTTCATGTGAAAGCAGACGTAAGTCA`
    returns the logarithm of `3^46·19 / (2^60·5^33)`, a real number that
    rounds to `-41.22` at two decimal places. -/
theorem C3_reference_score_rounds_to_minus_41_22 :
    ∃ r : ℝ,
      calc_path_probability refModel (letters "EEEEEEEEEEEEEEEEEE5IIIIIII")
        (letters "CTTCATGTGAAAGCAGACGTAAGTCA") = .ok (r : EReal) ∧
      round (100 * r) = (-4122 : ℤ) := by
  have hzip : (letters "EEEEEEEEEEEEEEEEEE5IIIIIII").zip (letters "CTTCATGTGAAAGCAGACGTAAGTCA") =
      [("E", "C"), ("E", "T"), ("E", "T"), ("E", "C"), ("E", "A"), ("E", "T"), ("E", "G"), ("E", "T"), ("E", "G"), ("E", "A"), ("E", "A"), ("E", "A"), ("E", "G"), ("E", "C"), ("E", "A"), ("E", "G"), ("E", "A"), ("E", "C"), ("5", "G"), ("I", "T"), ("I", "A"), ("I", "A"), ("I", "G"), ("I", "T"), ("I", "C"), ("I", "A")] := by
    with_unfolding_all decide
  have hlast : lastOf "Start" (letters "EEEEEEEEEEEEEEEEEE5IIIIIII") = "I" := by
    with_unfolding_all decide
  have hprod : score_prod refModel (letters "EEEEEEEEEEEEEEEEEE5IIIIIII")
      (letters "CTTCATGTGAAAGCAGACGTAAGTCA") = (3 ^ 46 * 19 : ℚ) / (2 ^ 60 * 5 ^ 33) := by
    unfold score_prod
    rw [hzip, if_pos hlast, tqIEnd]
    norm_num [rawFrom, tqSE, tqEE, tqE5, tq5I, tqII, eqEA, eqEC, eqEG, eqET,
      eq5G, eqIA, eqIC, eqIG, eqIT]
  have hcov : covFrom refModel "Start"
      ((letters "EEEEEEEEEEEEEEEEEE5IIIIIII").zip (letters "CTTCATGTGAAAGCAGACGTAAGTCA")) := by
    rw [hzip]
    with_unfolding_all decide
  have h := calc_covFrom refModel (letters "EEEEEEEEEEEEEEEEEE5IIIIIII")
    (letters "CTTCATGTGAAAGCAGACGTAAGTCA") (by with_unfolding_all decide) hcov
    (fun _ => by with_unfolding_all decide)
  rw [hprod] at h
  have hq0 : ((3 ^ 46 * 19 : ℚ) / (2 ^ 60 * 5 ^ 33)) ≠ 0 := by norm_num
  have hsl : safe_log ((3 ^ 46 * 19 : ℚ) / (2 ^ 60 * 5 ^ 33)) =
      ((Real.log (((3 ^ 46 * 19 : ℚ) / (2 ^ 60 * 5 ^ 33) : ℚ) : ℝ) : ℝ) : EReal) := by
    unfold safe_log
    rw [if_neg hq0]
  rw [hsl] at h
  set qr : ℝ := (((3 ^ 46 * 19 : ℚ) / (2 ^ 60 * 5 ^ 33) : ℚ) : ℝ) with hqr
  have hqpos : 0 < qr := by rw [hqr]; push_cast; positivity
  have hb1 : (1 : ℝ) ≤ qr ^ 128 * 2 ^ 7612 := by
    rw [hqr]
    have hq : (1 : ℚ) ≤ ((3 ^ 46 * 19 : ℚ) / (2 ^ 60 * 5 ^ 33)) ^ 128 * 2 ^ 7612 := by
      norm_num
    exact_mod_cast hq
  have hb2 : qr ^ 128 * 2 ^ 7611 ≤ 1 := by
    rw [hqr]
    have hq : ((3 ^ 46 * 19 : ℚ) / (2 ^ 60 * 5 ^ 33)) ^ 128 * 2 ^ 7611 ≤ 1 := by
      norm_num
    exact_mod_cast hq
  have hlog1 : 0 ≤ 128 * Real.log qr + 7612 * Real.log 2 := by
    have h0 : Real.log 1 ≤ Real.log (qr ^ 128 * 2 ^ 7612) :=
      Real.log_le_log (by norm_num) hb1
    rw [Real.log_one, Real.log_mul (ne_of_gt (pow_pos hqpos 128)) (by norm_num),
      Real.log_pow, Real.log_pow] at h0
    push_cast at h0
    linarith
  have hlog2 : 128 * Real.log qr + 7611 * Real.log 2 ≤ 0 := by
    have h0 : Real.log (qr ^ 128 * 2 ^ 7611) ≤ Real.log 1 :=
      Real.log_le_log (by positivity) hb2
    rw [Real.log_one, Real.log_mul (ne_of_gt (pow_pos hqpos 128)) (by norm_num),
      Real.log_pow, Real.log_pow] at h0
    push_cast at h0
    linarith
  have key : ∀ L T : ℝ, 0 ≤ 128 * L + 7612 * T → 128 * L + 7611 * T ≤ 0 →
      T < 0.6931471808 → 0.6931471803 < T → -41.2206 ≤ L ∧ L ≤ -41.2151 := by
    intro L T h1 h2 h3 h4
    constructor
    · linarith
    · linarith
  obtain ⟨hlb, hub⟩ := key (Real.log qr) (Real.log 2) hlog1 hlog2
    Real.log_two_lt_d9 Real.log_two_gt_d9
  have key2 : ∀ L : ℝ, -41.2206 ≤ L → L ≤ -41.2151 →
      round (100 * L) = (-4122 : ℤ) := by
    intro L h1 h2
    rw [round_eq, Int.floor_eq_iff]
    constructor
    · push_cast
      linarith
    · push_cast
      linarith
  exact ⟨Real.log qr, h, key2 (Real.log qr) hlb hub⟩

/- ### Claim C4. -/

/-- C4 confirmed: under the reference model, decoding
    `CTTCATGTGAAAGCAGACGTAAGTCA` returns the path of 26 copies of `E`. -/
theorem C4_reference_decode_all_E :
    find_best_path refModel (letters "CTTCATGTGAAAGCAGACGTAAGTCA") =
      .ok (List.replicate 26 (some "E")) := by
  with_unfolding_all decide

/- ### Claim C5. -/

/-- C5 confirmed: on the empty sequence, `find_best_path` fails — the Python
    code indexes `dp_table[0]` into an empty list, raising `IndexError`
    (the spec's empty-input error) — and returns no result, for every model. -/
theorem C5_decode_empty_input_fails (m : Model) :
    find_best_path m [] = .error Err.indexError := rfl

/- ### Claim C6. -/

/-- C6 confirmed: for every model, `calc_path_probability` raises the
    length-mismatch error exactly when the two inputs have different lengths.
    The first part holds for arbitrary tables — even empty ones — because the
    check precedes every table lookup and every probability accumulation; the
    second part shows equal-length inputs never produce that error. -/
theorem C6_length_mismatch_check (m : Model) (p s : List String) :
    (p.length ≠ s.length → calc_path_probability m p s = .error .lengthMismatch) ∧
    (p.length = s.length → calc_path_probability m p s ≠ .error .lengthMismatch) := by
  constructor
  · intro h
    unfold calc_path_probability
    rw [if_pos h]
  · intro h hc
    rcases calc_error m p s _ hc with ⟨hne, _⟩ | ⟨_, he⟩
    · exact hne h
    · exact Err.noConfusion he

/-- C6 witness: the two parts at concrete inputs. -/
theorem C6_witness :
    calc_path_probability refModel ["E"] [] = .error .lengthMismatch ∧
    calc_path_probability refModel [] [] ≠ .error .lengthMismatch :=
  ⟨(C6_length_mismatch_check refModel ["E"] []).1 (by decide),
   (C6_length_mismatch_check refModel [] []).2 rfl⟩

/- ### Claim C7. -/

/-- C7 confirmed: (i) whenever `calc_path_probability` returns a value for a
    path whose product of looked-up probabilities is zero, that value is
    `⊥` (negative infinity — `safe_log` maps zero there and `⊥` absorbs
    addition); (ii) under coverage and nonnegativity, whenever some path of
    the sequence's length has positive probability, the decoded path crosses
    only positive start, transition and emission probabilities. -/
theorem C7_zero_probability_handling :
    (∀ (m : Model) (p s : List String) (v : EReal),
        calc_path_probability m p s = .ok v → score_prod m p s = 0 → v = ⊥) ∧
    (∀ (m : Model) (seq : List String), Covers m seq → NonnegModel m →
      ∀ π : List String, π.length = seq.length → (∀ x ∈ π, x ∈ m.hmm_states) →
        0 < pathProb m (π.zip seq) →
        ∃ πT : List String, find_best_path m seq = .ok (πT.map some) ∧
          posPath m (πT.zip seq)) := by
  constructor
  · intro m p s v h hzero
    rw [(calc_ok_elim m p s v h).2, hzero]
    unfold safe_log
    rw [if_pos rfl]
  · intro m seq hcov hnn π hlen hmem hpos
    cases seq with
    | nil =>
      cases π with
      | nil => simp [pathProb] at hpos
      | cons a l => simp at hlen
    | cons s0 rest =>
      obtain ⟨πT, h1, _, _, h4, _⟩ := viterbi_run m s0 rest hcov hnn π hlen hmem hpos
      exact ⟨πT, h1, pathProb_pos_factors m hnn _ h4⟩

/-- C7 witness: part (i) at the path `5` against `C` (the `5 → C` emission
    probability is zero), part (ii) at the sequence `G`. -/
theorem C7_witness :
    safe_log (score_prod refModel ["5"] ["C"]) = ⊥ ∧
    ∃ πT : List String, find_best_path refModel ["G"] = .ok (πT.map some) ∧
      posPath refModel (πT.zip ["G"]) := by
  constructor
  · exact C7_zero_probability_handling.1 refModel ["5"] ["C"] _
      (calc_covFrom refModel ["5"] ["C"] rfl (by with_unfolding_all decide)
        (fun hc => absurd hc (by with_unfolding_all decide)))
      (by with_unfolding_all decide)
  · exact C7_zero_probability_handling.2 refModel ["G"]
      (by with_unfolding_all decide) (by with_unfolding_all decide)
      ["E"] rfl (by decide) (by with_unfolding_all decide)

/- ### Claim C8. -/

/-- C8 confirmed: whenever `calc_path_probability` returns a value, that
    value is the sum over positions of (log transition + log emission),
    plus the log of the `I → End` transition exactly when the path's final
    state is `I`; for a path ending in any other state there is no end
    term. -/
theorem C8_end_transition_iff_final_intron (m : Model) (p s : List String)
    (v : EReal) (h : calc_path_probability m p s = .ok v) :
    (lastOf "Start" p = "I" →
      v = logTerms m "Start" (p.zip s) + safe_log (transQ m "I" "End")) ∧
    (lastOf "Start" p ≠ "I" → v = logTerms m "Start" (p.zip s)) := by
  have hv := (calc_ok_elim m p s v h).2
  rw [logTerms_eq]
  constructor
  · intro hI
    rw [hv]
    unfold score_prod
    rw [if_pos hI, safe_log_mul]
  · intro hI
    rw [hv]
    unfold score_prod
    rw [if_neg hI, mul_one]

/-- C8 witness: the no-end-term part at the path `E` against `T`. -/
theorem C8_witness :
    safe_log (score_prod refModel ["E"] ["T"]) =
      logTerms refModel "Start" ((["E"] : List String).zip ["T"]) :=
  (C8_end_transition_iff_final_intron refModel ["E"] ["T"] _
    (calc_covFrom refModel ["E"] ["T"] rfl (by with_unfolding_all decide)
      (fun hc => absurd hc (by with_unfolding_all decide)))).2
    (by with_unfolding_all decide)

/- ### Claim C9. -/

/-- C9 confirmed: on an empty path and empty sequence,
    `calc_path_probability` raises no error and returns exactly `0.0`, for
    every model: the loop body never runs, and the final state stays
    `Start`, which is not `I`, so no end term is added. -/
theorem C9_empty_empty_scores_zero (m : Model) :
    calc_path_probability m [] [] = .ok 0 := rfl

/- ### Claim C10. -/

/-- C10 confirmed: for equal-length inputs whose path symbols come from
    `hmm_states` and whose sequence symbols come from `dna_bases`, the
    reference-model scorer never raises a lookup error: every transition
    lookup — from `Start` and to `End` included — and every emission lookup
    is defined in the hard-coded tables, so a value is always returned. -/
theorem C10_reference_lookups_total (p s : List String)
    (hlen : p.length = s.length)
    (hp : ∀ x ∈ p, x ∈ hmm_states) (hs : ∀ b ∈ s, b ∈ dna_bases) :
    ∃ v, calc_path_probability refModel p s = .ok v := by
  refine ⟨_, calc_covFrom refModel p s hlen ?_ (fun _ => by decide)⟩
  refine refCovFrom (p.zip s) "Start" (by decide) ?_
  intro e he
  obtain ⟨a, b⟩ := e
  obtain ⟨ha, hb⟩ := List.of_mem_zip he
  exact ⟨hp a ha, hs b hb⟩

/-- C10 witness: the scorer succeeds on the path `E` against `A`. -/
theorem C10_witness :
    ∃ v, calc_path_probability refModel ["E"] ["A"] = .ok v :=
  C10_reference_lookups_total ["E"] ["A"] rfl (by decide) (by decide)
